import Mathlib

set_option linter.unusedVariables false

/- Shallow embedding of the label-PDF generator (app.py).  Text metrics
   (reportlab's stringWidth with a fixed font name) are abstracted as a
   measure function, Python strings are lists of characters, and all
   floating-point quantities are modelled as rationals. -/

abbrev Str : Type := List Char

/- Abstract text-metrics provider: stringWidth with the font name fixed.
   First argument is the text, second the integer font size. -/
abbrev Measure : Type := Str → ℕ → ℚ

/- Whitespace test used by Python's str.split() (common whitespace). -/
def isWs (c : Char) : Bool := c == ' ' || c == '\t' || c == '\n' || c == '\r'

/- Python text.split(): maximal runs of non-whitespace, empties dropped. -/
def splitWs : Str → List Str
  | [] => []
  | c :: cs =>
    if isWs c then splitWs cs
    else
      match cs with
      | [] => [[c]]
      | c2 :: cs2 =>
        if isWs c2 then [c] :: splitWs cs2
        else
          match splitWs (c2 :: cs2) with
          | [] => [[c]]
          | w :: ws => (c :: w) :: ws

/- Python text.split("\n"): split on each newline, keeping empty pieces. -/
def splitNl : Str → List Str
  | [] => [[]]
  | c :: cs =>
    if c == '\n' then [] :: splitNl cs
    else
      match splitNl cs with
      | [] => [[c]]
      | l :: ls => (c :: l) :: ls

/- Maximum of a list of rationals (value on [] is irrelevant, see pyMax). -/
def listMax : List ℚ → ℚ
  | [] => 0
  | x :: xs => xs.foldl max x

/- Python max(iterable): raises ValueError on an empty iterable, modelled
   as none. -/
def pyMax (l : List ℚ) : Option ℚ := if l = [] then none else some (listMax l)

/- Loop body of wrap_text_to_width: lines is the accumulator list, then the
   current line, then the remaining words (words[1:] on entry). -/
def wrapLoop (μ : Measure) (font_size : ℕ) (max_width : ℚ) :
    List Str → Str → List Str → List Str
  | lines, current_line, [] => lines ++ [current_line]
  | lines, current_line, word :: rest =>
    if μ (current_line ++ ' ' :: word) font_size ≤ max_width then
      wrapLoop μ font_size max_width lines (current_line ++ ' ' :: word) rest
    else
      wrapLoop μ font_size max_width (lines ++ [current_line]) word rest

/- wrap_text_to_width from app.py: wrap a single line of text into multiple
   lines that fit within max_width. -/
def wrap_text_to_width (μ : Measure) (text : Str) (font_size : ℕ)
    (max_width : ℚ) : List Str :=
  match splitWs text with
  | [] => [[]]
  | w :: ws => wrapLoop μ font_size max_width [] w ws

/- Greedy reference wrap, transcribed from the specification's words: append
   each word to the current line while measure(current ++ " " ++ word) fits,
   otherwise close the current physical line and start a new one. -/
def greedy_wrap_go (μ : Measure) (font_size : ℕ) (max_width : ℚ) :
    Str → List Str → List Str
  | current, [] => [current]
  | current, word :: rest =>
    if μ (current ++ ' ' :: word) font_size ≤ max_width then
      greedy_wrap_go μ font_size max_width (current ++ ' ' :: word) rest
    else
      current :: greedy_wrap_go μ font_size max_width word rest

/- Greedy reference wrap from the specification, on a whole string: split on
   whitespace, then wrap greedily; the empty word list gives one empty line. -/
def greedy_wrap (μ : Measure) (text : Str) (font_size : ℕ)
    (max_width : ℚ) : List Str :=
  match splitWs text with
  | [] => [[]]
  | w :: ws => greedy_wrap_go μ font_size max_width w ws

/- The wrapped_lines accumulation in find_max_font_size_for_multiline and
   draw_label_pdf: wrap every logical line and concatenate. -/
def wrapAll (μ : Measure) (lines : List Str) (font_size : ℕ)
    (max_width : ℚ) : List Str :=
  lines.flatMap (fun line => wrap_text_to_width μ line font_size max_width)

/- One iteration of the body of the while-loop of
   find_max_font_size_for_multiline: none models the ValueError raised by
   max() on an empty sequence; some true means the size fails the fit test
   (the loop returns), some false means it fits (the loop continues). -/
def stepCheck (μ : Measure) (lines : List Str) (max_width max_height : ℚ)
    (font_size : ℕ) : Option Bool :=
  let wrapped_lines := wrapAll μ lines font_size max_width
  let total_height : ℤ :=
    (wrapped_lines.length : ℤ) * (font_size : ℤ) +
      ((wrapped_lines.length : ℤ) - 1) * 2
  match pyMax (wrapped_lines.map (fun line => μ line font_size)) with
  | none => none
  | some max_line_width =>
    some (decide (max_line_width > max_width - 4) ||
          decide ((total_height : ℚ) > max_height - 4))

lemma wrapLoop_eq_go (μ : Measure) (fs : ℕ) (W : ℚ) :
    ∀ (rest : List Str) (lines : List Str) (current : Str),
      wrapLoop μ fs W lines current rest =
        lines ++ greedy_wrap_go μ fs W current rest := by
  intro rest
  induction rest with
  | nil => intro lines current; simp [wrapLoop, greedy_wrap_go]
  | cons w ws ih =>
    intro lines current
    simp only [wrapLoop, greedy_wrap_go]
    by_cases hfit : μ (current ++ ' ' :: w) fs ≤ W
    · simp only [if_pos hfit, ih]
    · simp only [if_neg hfit, ih, List.append_assoc, List.singleton_append]

lemma wrap_eq_greedy (μ : Measure) (t : Str) (fs : ℕ) (W : ℚ) :
    wrap_text_to_width μ t fs W = greedy_wrap μ t fs W := by
  unfold wrap_text_to_width greedy_wrap
  cases splitWs t with
  | nil => rfl
  | cons w ws => simp [wrapLoop_eq_go]

lemma greedy_wrap_go_ne_nil (μ : Measure) (fs : ℕ) (W : ℚ) :
    ∀ (rest : List Str) (current : Str), greedy_wrap_go μ fs W current rest ≠ [] := by
  intro rest
  induction rest with
  | nil => intro current; simp [greedy_wrap_go]
  | cons w ws ih =>
    intro current
    simp only [greedy_wrap_go]
    by_cases hfit : μ (current ++ ' ' :: w) fs ≤ W
    · simpa [if_pos hfit] using ih (current ++ ' ' :: w)
    · simp [if_neg hfit]

lemma wrap_text_to_width_ne_nil (μ : Measure) (t : Str) (fs : ℕ) (W : ℚ) :
    wrap_text_to_width μ t fs W ≠ [] := by
  rw [wrap_eq_greedy]
  unfold greedy_wrap
  cases splitWs t with
  | nil => simp
  | cons w ws => exact greedy_wrap_go_ne_nil μ fs W ws w

lemma wrapAll_eq_nil_iff (μ : Measure) (lines : List Str) (fs : ℕ) (W : ℚ) :
    wrapAll μ lines fs W = [] ↔ lines = [] := by
  constructor
  · intro hw
    cases hl : lines with
    | nil => rfl
    | cons l ls =>
      rw [hl] at hw
      unfold wrapAll at hw
      simp only [List.flatMap_cons, List.append_eq_nil] at hw
      exact absurd hw.1 (wrap_text_to_width_ne_nil μ l fs W)
  · intro hl; simp [hl, wrapAll]

lemma stepCheck_eq_none_iff (μ : Measure) (lines : List Str) (w h : ℚ) (s : ℕ) :
    stepCheck μ lines w h s = none ↔ lines = [] := by
  unfold stepCheck pyMax
  by_cases hw : wrapAll μ lines s w = []
  · have hl := (wrapAll_eq_nil_iff μ lines s w).mp hw
    subst hl
    simp [wrapAll]
  · have hmap : (wrapAll μ lines s w).map (fun line => μ line s) ≠ [] := by
      simpa using hw
    have hl : lines ≠ [] := fun hc => hw ((wrapAll_eq_nil_iff μ lines s w).mpr hc)
    simp [hmap, hl]

lemma totalHeight_ge (n : ℕ) (hn : 1 ≤ n) (s : ℕ) :
    (s : ℤ) ≤ (n : ℤ) * (s : ℤ) + ((n : ℤ) - 1) * 2 := by
  have h1 : (1 : ℤ) ≤ (n : ℤ) := by exact_mod_cast hn
  have hs : (0 : ℤ) ≤ (s : ℤ) := Int.ofNat_nonneg s
  nlinarith

lemma stepCheck_false_elim (μ : Measure) (lines : List Str) (w h : ℚ) (s : ℕ)
    (hc : stepCheck μ lines w h s = some false) :
    lines ≠ [] ∧ (s : ℚ) ≤ h - 4 := by
  have hl : lines ≠ [] := by
    intro hl0
    have hnone := (stepCheck_eq_none_iff μ lines w h s).mpr hl0
    rw [hnone] at hc
    exact Option.noConfusion hc
  refine ⟨hl, ?_⟩
  simp only [stepCheck, pyMax] at hc
  by_cases hw : (wrapAll μ lines s w).map (fun line => μ line s) = []
  · simp [hw] at hc
  · simp only [hw, if_neg, not_false_iff, ite_false] at hc
    have hwl : wrapAll μ lines s w ≠ [] := by
      intro hx; exact hw (by simp [hx])
    simp only [Option.some_inj, Bool.or_eq_false_iff, decide_eq_false_iff_not, not_lt] at hc
    have hn : 1 ≤ (wrapAll μ lines s w).length := List.length_pos.mpr hwl
    have hth := totalHeight_ge (wrapAll μ lines s w).length hn s
    have hthq : ((s : ℤ) : ℚ) ≤
        (((wrapAll μ lines s w).length : ℤ) * (s : ℤ) +
          (((wrapAll μ lines s w).length : ℤ) - 1) * 2 : ℤ) := by exact_mod_cast hth
    calc (s : ℚ) = ((s : ℤ) : ℚ) := by norm_cast
    _ ≤ _ := hthq
    _ ≤ h - 4 := hc.2

lemma stepCheck_false_lt (μ : Measure) (lines : List Str) (w h : ℚ) (s : ℕ)
    (hc : stepCheck μ lines w h s = some false) : s < (⌈h⌉.toNat + 1) := by
  have h2 := (stepCheck_false_elim μ lines w h s hc).2
  have h3 : ((s : ℤ) : ℚ) < h := by push_cast; linarith
  have h4 : (s : ℤ) < ⌈h⌉ := Int.lt_ceil.mpr h3
  omega

/- The while-loop of find_max_font_size_for_multiline, starting at candidate
   size font_size: return max(font_size - 1, 1) at the first failing size;
   none models the ValueError raised by max() when lines is empty. -/
def searchLoop (μ : Measure) (lines : List Str) (max_width max_height : ℚ)
    (font_size : ℕ) : Option ℕ :=
  match hc : stepCheck μ lines max_width max_height font_size with
  | none => none
  | some true => some (max (font_size - 1) 1)
  | some false => searchLoop μ lines max_width max_height (font_size + 1)
termination_by (⌈max_height⌉.toNat + 1) - font_size
decreasing_by
  have := stepCheck_false_lt μ lines max_width max_height font_size hc
  omega

/- find_max_font_size_for_multiline from app.py: linear upward search
   starting at font size 1. -/
def find_max_font_size_for_multiline (μ : Measure) (lines : List Str)
    (max_width max_height : ℚ) : Option ℕ :=
  searchLoop μ lines max_width max_height 1

lemma searchLoop_of_none (μ : Measure) (lines : List Str) (w h : ℚ) (s : ℕ)
    (hc : stepCheck μ lines w h s = none) : searchLoop μ lines w h s = none := by
  rw [searchLoop]
  split <;> simp_all

lemma searchLoop_of_true (μ : Measure) (lines : List Str) (w h : ℚ) (s : ℕ)
    (hc : stepCheck μ lines w h s = some true) :
    searchLoop μ lines w h s = some (max (s - 1) 1) := by
  rw [searchLoop]
  split <;> simp_all

lemma searchLoop_of_false (μ : Measure) (lines : List Str) (w h : ℚ) (s : ℕ)
    (hc : stepCheck μ lines w h s = some false) :
    searchLoop μ lines w h s = searchLoop μ lines w h (s + 1) := by
  rw [searchLoop]
  split <;> simp_all

lemma searchLoop_unfold (μ : Measure) (lines : List Str) (w h : ℚ) (s : ℕ) :
    searchLoop μ lines w h s =
      match stepCheck μ lines w h s with
      | none => none
      | some true => some (max (s - 1) 1)
      | some false => searchLoop μ lines w h (s + 1) := by
  cases hstep : stepCheck μ lines w h s with
  | none => rw [searchLoop_of_none μ lines w h s hstep]
  | some b =>
    cases b with
    | false => rw [searchLoop_of_false μ lines w h s hstep]
    | true => rw [searchLoop_of_true μ lines w h s hstep]

lemma searchLoop_ret_aux (μ : Measure) (lines : List Str) (w h : ℚ) (f : ℕ)
    (hf : stepCheck μ lines w h f = some true) :
    ∀ (n s : ℕ), f - s = n → s ≤ f →
      (∀ t, s ≤ t → t < f → stepCheck μ lines w h t = some false) →
      searchLoop μ lines w h s = some (max (f - 1) 1) := by
  intro n
  induction n with
  | zero =>
    intro s hn hsf hmin
    have hs : s = f := by omega
    subst hs
    exact searchLoop_of_true μ lines w h s hf
  | succ k ih =>
    intro s hn hsf hmin
    have hlt : s < f := by omega
    have hfalse := hmin s le_rfl hlt
    rw [searchLoop_of_false μ lines w h s hfalse]
    exact ih (s + 1) (by omega) (by omega) (fun t ht1 ht2 => hmin t (by omega) ht2)

lemma exists_first_fail (μ : Measure) (lines : List Str) (w h : ℚ)
    (hl : lines ≠ []) :
    ∃ f, 1 ≤ f ∧ stepCheck μ lines w h f = some true ∧
      ∀ t, 1 ≤ t → t < f → stepCheck μ lines w h t = some false := by
  have hex : ∃ n, stepCheck μ lines w h (n + 1) ≠ some false := by
    refine ⟨⌈h⌉.toNat + 1, ?_⟩
    intro hc
    have := stepCheck_false_lt μ lines w h _ hc
    omega
  have hfspec := Nat.find_spec hex
  have hnn : stepCheck μ lines w h (Nat.find hex + 1) ≠ none := by
    intro hc
    exact hl ((stepCheck_eq_none_iff μ lines w h _).mp hc)
  have htrue : stepCheck μ lines w h (Nat.find hex + 1) = some true := by
    cases hc : stepCheck μ lines w h (Nat.find hex + 1) with
    | none => exact absurd hc hnn
    | some b =>
      cases b with
      | false => exact absurd hc hfspec
      | true => rfl
  refine ⟨Nat.find hex + 1, by omega, htrue, ?_⟩
  intro t ht1 ht2
  have hlt : t - 1 < Nat.find hex := by omega
  have hmin := Nat.find_min hex hlt
  have ht : t - 1 + 1 = t := by omega
  rw [ht] at hmin
  exact not_not.mp hmin

lemma find_max_char (μ : Measure) (lines : List Str) (w h : ℚ)
    (hl : lines ≠ []) :
    ∃ f, 1 ≤ f ∧ stepCheck μ lines w h f = some true ∧
      (∀ t, 1 ≤ t → t < f → stepCheck μ lines w h t = some false) ∧
      find_max_font_size_for_multiline μ lines w h = some (max (f - 1) 1) := by
  obtain ⟨f, hf1, hft, hmin⟩ := exists_first_fail μ lines w h hl
  refine ⟨f, hf1, hft, hmin, ?_⟩
  unfold find_max_font_size_for_multiline
  exact searchLoop_ret_aux μ lines w h f hft (f - 1) 1 (by omega) hf1 hmin

/- Constant FONT_ADJUSTMENT = 2 from app.py (printer safety margin). -/
def FONT_ADJUSTMENT : ℤ := 2

/- Effective render size computed in draw_label_pdf:
   max(raw_font_size - FONT_ADJUSTMENT + font_override, 1). -/
def effectiveFontSize (raw_font_size : ℕ) (font_override : ℤ) : ℤ :=
  max ((raw_font_size : ℤ) - FONT_ADJUSTMENT + font_override) 1

/- One drawString instruction issued on the reportlab canvas. -/
structure DrawCmd where
  x : ℚ
  y : ℚ
  text : Str
  deriving DecidableEq, Repr

/- Drawing loop of draw_label_pdf: wrap the logical lines at the effective
   font size, recompute total_height and start_y at that size, and emit one
   centered drawString instruction per wrapped line, top line highest. -/
def drawCmds (μ : Measure) (lines : List Str) (width height : ℚ)
    (font_size : ℤ) : List DrawCmd :=
  let wrapped_lines := wrapAll μ lines font_size.toNat width
  let total_height : ℤ :=
    (wrapped_lines.length : ℤ) * font_size +
      ((wrapped_lines.length : ℤ) - 1) * 2
  let start_y : ℚ := (height - (total_height : ℚ)) / 2
  (List.range wrapped_lines.length).map (fun i =>
    { x := (width - μ (wrapped_lines.getD i []) font_size.toNat) / 2
      y := start_y +
        (((wrapped_lines.length : ℤ) - (i : ℤ) - 1 : ℤ) : ℚ) *
          ((font_size + 2 : ℤ) : ℚ)
      text := wrapped_lines.getD i [] })

/- draw_label_pdf from app.py, as the layout it computes: the effective font
   size set on the canvas and the ordered list of drawString instructions.
   none models an exception propagating out of the font-size search. -/
def draw_label_pdf (μ : Measure) (text : Str) (width height : ℚ)
    (font_override : ℤ) : Option (ℤ × List DrawCmd) :=
  let lines := splitNl text
  match find_max_font_size_for_multiline μ lines width height with
  | none => none
  | some raw_font_size =>
    let font_size : ℤ := effectiveFontSize raw_font_size font_override
    some (font_size, drawCmds μ lines width height font_size)

/- Python value.strip(): drop leading and trailing whitespace. -/
def pyStrip (t : Str) : Str :=
  ((t.dropWhile (fun c => isWs c)).reverse.dropWhile (fun c => isWs c)).reverse

/- create_pdf from app.py: one page of draw instructions per surviving
   record; rows that strip to empty or to "nan" are skipped. -/
def create_pdf (μ : Measure) (data_list : List Str) (width height : ℚ)
    (font_override : ℤ) : List (Option (ℤ × List DrawCmd)) :=
  data_list.filterMap (fun value =>
    let text := pyStrip value
    if text = [] ∨ text.map Char.toLower = ['n', 'a', 'n'] then none
    else some (draw_label_pdf μ text width height font_override))

/- Fit predicate transcribed from the specification's words (section 4.2):
   at candidate size s the logical lines are word-wrapped at that size,
   total_height = numLines * size + (numLines - 1) * 2, max_width is the
   largest measured line width, and the size fits iff
   max_width <= width - 4 and total_height <= height - 4. -/
def specFits (μ : Measure) (lines : List Str) (width height : ℚ)
    (size : ℕ) : Prop :=
  let physical := wrapAll μ lines size width
  let numLines : ℤ := physical.length
  let total_height : ℤ := numLines * (size : ℤ) + (numLines - 1) * 2
  let max_width : ℚ := listMax (physical.map (fun line => μ line size))
  max_width ≤ width - 4 ∧ (total_height : ℚ) ≤ height - 4

lemma splitWs_cons_of_ws (c : Char) (cs : Str) (h : isWs c = true) :
    splitWs (c :: cs) = splitWs cs := by
  cases cs with
  | nil => simp [splitWs, h]
  | cons c2 cs2 => simp [splitWs, h]

lemma splitWs_cons_head :
    ∀ (cs : Str) (c : Char), isWs c = false →
      ∃ w ws, splitWs (c :: cs) = (c :: w) :: ws := by
  intro cs
  induction cs with
  | nil =>
    intro c hc
    exact ⟨[], [], by simp [splitWs, hc]⟩
  | cons c2 cs2 ih =>
    intro c hc
    by_cases h2 : isWs c2 = true
    · exact ⟨[], splitWs cs2, by simp [splitWs, hc, h2]⟩
    · have h2f : isWs c2 = false := by simpa using h2
      obtain ⟨w0, ws0, hw⟩ := ih c2 h2f
      refine ⟨c2 :: w0, ws0, ?_⟩
      simp only [splitWs, hc, h2f, Bool.false_eq_true, if_false, hw]

lemma splitWs_word :
    ∀ (w : Str), w ≠ [] → (∀ c ∈ w, isWs c = false) → splitWs w = [w] := by
  intro w
  induction w with
  | nil => intro h; exact absurd rfl h
  | cons c rest ih =>
    intro hne hchars
    have hc : isWs c = false := hchars c (by simp)
    cases rest with
    | nil => simp [splitWs, hc]
    | cons c2 r =>
      have h2 : isWs c2 = false := hchars c2 (by simp)
      have hrest : splitWs (c2 :: r) = [c2 :: r] :=
        ih (by simp) (fun x hx => hchars x (by simp [hx]))
      simp only [splitWs, hc, h2, Bool.false_eq_true, if_false, hrest]

lemma splitWs_mem_words :
    ∀ (t : Str) (w : Str), w ∈ splitWs t →
      w ≠ [] ∧ ∀ c ∈ w, isWs c = false := by
  intro t
  induction t with
  | nil => intro w hw; simp [splitWs] at hw
  | cons c cs ih =>
    intro w hw
    by_cases hc : isWs c = true
    · rw [splitWs_cons_of_ws c cs hc] at hw
      exact ih w hw
    · have hcf : isWs c = false := by simpa using hc
      cases cs with
      | nil =>
        simp only [splitWs, hcf, Bool.false_eq_true, if_false, List.mem_singleton] at hw
        subst hw
        exact ⟨by simp, by intro x hx; simp at hx; subst hx; exact hcf⟩
      | cons c2 cs2 =>
        by_cases h2 : isWs c2 = true
        · simp only [splitWs, hcf, h2, Bool.false_eq_true, if_false, if_true,
            List.mem_cons] at hw
          rcases hw with hw | hw
          · subst hw
            exact ⟨by simp, by intro x hx; simp at hx; subst hx; exact hcf⟩
          · have hw2 : w ∈ splitWs (c2 :: cs2) := by
              rw [splitWs_cons_of_ws c2 cs2 h2]; exact hw
            exact ih w hw2
        · have h2f : isWs c2 = false := by simpa using h2
          obtain ⟨w0, ws0, hsplit⟩ := splitWs_cons_head cs2 c2 h2f
          simp only [splitWs, hcf, h2f, Bool.false_eq_true, if_false, hsplit,
            List.mem_cons] at hw
          rcases hw with hw | hw
          · subst hw
            have hmem : (c2 :: w0) ∈ splitWs (c2 :: cs2) := by
              rw [hsplit]; simp
            obtain ⟨hne0, hch0⟩ := ih (c2 :: w0) hmem
            refine ⟨by simp, ?_⟩
            intro x hx
            rcases List.mem_cons.mp hx with hx | hx
            · subst hx; exact hcf
            · exact hch0 x hx
          · have hmem : w ∈ splitWs (c2 :: cs2) := by
              rw [hsplit]; simp [hw]
            exact ih w hmem


lemma splitWs_singleton_nonws (c : Char) (hc : isWs c = false) :
    splitWs [c] = [[c]] := by
  simp [splitWs, hc]

lemma splitWs_cons_nonws_ws (c c2 : Char) (cs2 : Str)
    (hc : isWs c = false) (h2 : isWs c2 = true) :
    splitWs (c :: c2 :: cs2) = [c] :: splitWs cs2 := by
  simp [splitWs, hc, h2]

lemma splitWs_cons_nonws_nonws (c c2 : Char) (cs2 : Str) (w0 : Str)
    (ws0 : List Str) (hc : isWs c = false) (h2 : isWs c2 = false)
    (hsplit : splitWs (c2 :: cs2) = (c2 :: w0) :: ws0) :
    splitWs (c :: c2 :: cs2) = (c :: c2 :: w0) :: ws0 := by
  simp only [splitWs, hc, h2, Bool.false_eq_true, if_false, hsplit]

lemma splitWs_append_space (b : Str) :
    ∀ (a : Str), splitWs (a ++ ' ' :: b) = splitWs a ++ splitWs b := by
  have hsp : isWs ' ' = true := rfl
  intro a
  induction a with
  | nil =>
    rw [List.nil_append, splitWs_cons_of_ws ' ' b hsp]
    rfl
  | cons c cs ih =>
    by_cases hc : isWs c = true
    · rw [List.cons_append, splitWs_cons_of_ws c _ hc, ih,
        splitWs_cons_of_ws c cs hc]
    · have hcf : isWs c = false := by simpa using hc
      cases cs with
      | nil =>
        rw [show ([c] ++ ' ' :: b) = c :: ' ' :: b from rfl,
          splitWs_cons_nonws_ws c ' ' b hcf hsp,
          splitWs_singleton_nonws c hcf]
        rfl
      | cons c2 cs2 =>
        by_cases h2 : isWs c2 = true
        · have hih : splitWs (cs2 ++ ' ' :: b) = splitWs cs2 ++ splitWs b := by
            have h1 : splitWs ((c2 :: cs2) ++ ' ' :: b) =
                splitWs (cs2 ++ ' ' :: b) := by
              rw [List.cons_append, splitWs_cons_of_ws c2 _ h2]
            have h3 : splitWs (c2 :: cs2) = splitWs cs2 :=
              splitWs_cons_of_ws c2 cs2 h2
            rw [← h1, ih, h3]
          rw [show ((c :: c2 :: cs2) ++ ' ' :: b) =
              c :: c2 :: (cs2 ++ ' ' :: b) from rfl,
            splitWs_cons_nonws_ws c c2 _ hcf h2, hih,
            splitWs_cons_nonws_ws c c2 cs2 hcf h2]
          rfl
        · have h2f : isWs c2 = false := by simpa using h2
          obtain ⟨w0, ws0, hsplit⟩ := splitWs_cons_head cs2 c2 h2f
          have hih2 : splitWs (c2 :: (cs2 ++ ' ' :: b)) =
              (c2 :: w0) :: (ws0 ++ splitWs b) := by
            have h1 : splitWs ((c2 :: cs2) ++ ' ' :: b) =
                splitWs (c2 :: cs2) ++ splitWs b := ih
            rw [List.cons_append] at h1
            rw [h1, hsplit]
            rfl
          rw [show ((c :: c2 :: cs2) ++ ' ' :: b) =
              c :: c2 :: (cs2 ++ ' ' :: b) from rfl,
            splitWs_cons_nonws_nonws c c2 (cs2 ++ ' ' :: b) w0
              (ws0 ++ splitWs b) hcf h2f hih2,
            splitWs_cons_nonws_nonws c c2 cs2 w0 ws0 hcf h2f hsplit]
          rfl

lemma greedy_go_flat (μ : Measure) (s : ℕ) (W : ℚ) :
    ∀ (ws : List Str) (cur : Str),
      (∀ w ∈ ws, w ≠ [] ∧ ∀ c ∈ w, isWs c = false) →
      (greedy_wrap_go μ s W cur ws).flatMap splitWs = splitWs cur ++ ws := by
  intro ws
  induction ws with
  | nil => intro cur hws; simp [greedy_wrap_go]
  | cons w rest ih =>
    intro cur hws
    have hw := hws w (by simp)
    have hrest : ∀ x ∈ rest, x ≠ [] ∧ ∀ c ∈ x, isWs c = false :=
      fun x hx => hws x (by simp [hx])
    simp only [greedy_wrap_go]
    by_cases hfit : μ (cur ++ ' ' :: w) s ≤ W
    · rw [if_pos hfit, ih (cur ++ ' ' :: w) hrest,
        splitWs_append_space w cur, splitWs_word w hw.1 hw.2]
      simp
    · rw [if_neg hfit]
      simp only [List.flatMap_cons]
      rw [ih w hrest, splitWs_word w hw.1 hw.2]
      simp

lemma wrap_words_preserved (μ : Measure) (t : Str) (s : ℕ) (W : ℚ) :
    (wrap_text_to_width μ t s W).flatMap splitWs = splitWs t := by
  rw [wrap_eq_greedy]
  unfold greedy_wrap
  cases hsp : splitWs t with
  | nil => simp [splitWs]
  | cons w ws =>
    have hwords : ∀ x ∈ splitWs t, x ≠ [] ∧ ∀ c ∈ x, isWs c = false :=
      fun x hx => splitWs_mem_words t x hx
    rw [hsp] at hwords
    have hw := hwords w (by simp)
    have hws : ∀ x ∈ ws, x ≠ [] ∧ ∀ c ∈ x, isWs c = false :=
      fun x hx => hwords x (by simp [hx])
    rw [greedy_go_flat μ s W ws w hws, splitWs_word w hw.1 hw.2]
    rfl

lemma greedy_go_extend (μ : Measure) (s : ℕ) (W : ℚ) (w : Str) :
    ∀ (t : List Str) (h0 cur : Str),
      greedy_wrap_go μ s W h0 t = [cur] →
      μ (cur ++ ' ' :: w) s ≤ W →
      greedy_wrap_go μ s W h0 (t ++ [w]) = [cur ++ ' ' :: w] := by
  intro t
  induction t with
  | nil =>
    intro h0 cur hsingle hfit
    simp only [greedy_wrap_go, List.cons.injEq] at hsingle
    have hcur : h0 = cur := hsingle.1
    subst hcur
    simp only [List.nil_append, greedy_wrap_go, if_pos hfit]
  | cons v t2 ih =>
    intro h0 cur hsingle hfit
    simp only [greedy_wrap_go] at hsingle ⊢
    by_cases hv : μ (h0 ++ ' ' :: v) s ≤ W
    · rw [if_pos hv] at hsingle
      rw [if_pos hv]
      exact ih (h0 ++ ' ' :: v) cur hsingle hfit
    · rw [if_neg hv] at hsingle
      have := greedy_wrap_go_ne_nil μ s W t2 v
      simp only [List.cons.injEq] at hsingle
      exact absurd hsingle.2 this

lemma greedy_go_rewrap (μ : Measure) (s : ℕ) (W : ℚ) :
    ∀ (ws : List Str) (cur : Str),
      (∀ w ∈ ws, w ≠ [] ∧ ∀ c ∈ w, isWs c = false) →
      greedy_wrap μ cur s W = [cur] →
      splitWs cur ≠ [] →
      ∀ L ∈ greedy_wrap_go μ s W cur ws,
        greedy_wrap μ L s W = [L] ∧ splitWs L ≠ [] := by
  intro ws
  induction ws with
  | nil =>
    intro cur hws hcur hsp L hL
    simp only [greedy_wrap_go, List.mem_singleton] at hL
    subst hL
    exact ⟨hcur, hsp⟩
  | cons w rest ih =>
    intro cur hws hcur hsp L hL
    have hw := hws w (by simp)
    have hrest : ∀ x ∈ rest, x ≠ [] ∧ ∀ c ∈ x, isWs c = false :=
      fun x hx => hws x (by simp [hx])
    simp only [greedy_wrap_go] at hL
    by_cases hfit : μ (cur ++ ' ' :: w) s ≤ W
    · rw [if_pos hfit] at hL
      obtain ⟨h0, t0, hsplit⟩ : ∃ h0 t0, splitWs cur = h0 :: t0 := by
        cases hx : splitWs cur with
        | nil => exact absurd hx hsp
        | cons a b => exact ⟨a, b, rfl⟩
      have hgo : greedy_wrap_go μ s W h0 t0 = [cur] := by
        unfold greedy_wrap at hcur
        rw [hsplit] at hcur
        exact hcur
      have hsplit2 : splitWs (cur ++ ' ' :: w) = h0 :: (t0 ++ [w]) := by
        rw [splitWs_append_space w cur, splitWs_word w hw.1 hw.2, hsplit]
        rfl
      have hext := greedy_go_extend μ s W w t0 h0 cur hgo hfit
      have hnew : greedy_wrap μ (cur ++ ' ' :: w) s W = [cur ++ ' ' :: w] := by
        unfold greedy_wrap
        rw [hsplit2]
        exact hext
      exact ih (cur ++ ' ' :: w) hrest hnew (by rw [hsplit2]; simp) L hL
    · rw [if_neg hfit] at hL
      rcases List.mem_cons.mp hL with hL | hL
      · subst hL; exact ⟨hcur, hsp⟩
      · have hwword : splitWs w = [w] := splitWs_word w hw.1 hw.2
        have hwrap : greedy_wrap μ w s W = [w] := by
          unfold greedy_wrap
          rw [hwword]
          rfl
        exact ih w hrest hwrap (by rw [hwword]; simp) L hL

lemma wrap_mem_rewrap (μ : Measure) (s : ℕ) (W : ℚ) (t : Str) :
    ∀ L ∈ wrap_text_to_width μ t s W, wrap_text_to_width μ L s W = [L] := by
  intro L hL
  rw [wrap_eq_greedy] at hL ⊢
  unfold greedy_wrap at hL
  revert hL
  cases hsp : splitWs t with
  | nil =>
    intro hL
    simp only [List.mem_singleton] at hL
    subst hL
    unfold greedy_wrap
    simp [splitWs]
  | cons w ws =>
    intro hL
    have hwords : ∀ x ∈ splitWs t, x ≠ [] ∧ ∀ c ∈ x, isWs c = false :=
      fun x hx => splitWs_mem_words t x hx
    rw [hsp] at hwords
    have hw := hwords w (by simp)
    have hws : ∀ x ∈ ws, x ≠ [] ∧ ∀ c ∈ x, isWs c = false :=
      fun x hx => hwords x (by simp [hx])
    have hwword : splitWs w = [w] := splitWs_word w hw.1 hw.2
    have hwrap : greedy_wrap μ w s W = [w] := by
      unfold greedy_wrap
      rw [hwword]
      rfl
    exact (greedy_go_rewrap μ s W ws w hws hwrap (by rw [hwword]; simp) L hL).1

lemma greedy_go_wide (μ : Measure) (s : ℕ) (W : ℚ)
    (hmono : ∀ a b : Str, μ a s ≤ μ (a ++ ' ' :: b) s ∧ μ b s ≤ μ (a ++ ' ' :: b) s) :
    ∀ (ws : List Str) (cur : Str),
      (∀ w ∈ ws, w ≠ [] ∧ ∀ c ∈ w, isWs c = false) →
      (splitWs cur = [cur] ∨
        (2 ≤ (splitWs cur).length ∧ ∀ v ∈ splitWs cur, μ v s ≤ W)) →
      ∀ L ∈ greedy_wrap_go μ s W cur ws,
        2 ≤ (splitWs L).length → ∀ v ∈ splitWs L, μ v s ≤ W := by
  intro ws
  induction ws with
  | nil =>
    intro cur hws hinv L hL hlen v hv
    simp only [greedy_wrap_go, List.mem_singleton] at hL
    subst hL
    rcases hinv with hinv | hinv
    · rw [hinv] at hlen; simp at hlen
    · exact hinv.2 v hv
  | cons w rest ih =>
    intro cur hws hinv L hL hlen v hv
    have hw := hws w (by simp)
    have hrest : ∀ x ∈ rest, x ≠ [] ∧ ∀ c ∈ x, isWs c = false :=
      fun x hx => hws x (by simp [hx])
    have hwword : splitWs w = [w] := splitWs_word w hw.1 hw.2
    simp only [greedy_wrap_go] at hL
    by_cases hfit : μ (cur ++ ' ' :: w) s ≤ W
    · rw [if_pos hfit] at hL
      have hsplit2 : splitWs (cur ++ ' ' :: w) = splitWs cur ++ [w] := by
        rw [splitWs_append_space w cur, hwword]
      have hinv2 : splitWs (cur ++ ' ' :: w) = [cur ++ ' ' :: w] ∨
          (2 ≤ (splitWs (cur ++ ' ' :: w)).length ∧
            ∀ x ∈ splitWs (cur ++ ' ' :: w), μ x s ≤ W) := by
        right
        constructor
        · rw [hsplit2]
          rcases hinv with hinv | hinv
          · rw [hinv]; simp
          · rw [List.length_append]; omega
        · intro x hx
          rw [hsplit2] at hx
          rcases List.mem_append.mp hx with hx | hx
          · rcases hinv with hinv | hinv
            · rw [hinv] at hx
              simp only [List.mem_singleton] at hx
              rw [hx]
              exact le_trans (hmono cur w).1 hfit
            · exact hinv.2 x hx
          · simp only [List.mem_singleton] at hx
            rw [hx]
            exact le_trans (hmono cur w).2 hfit
      exact ih (cur ++ ' ' :: w) hrest hinv2 L hL hlen v hv
    · rw [if_neg hfit] at hL
      rcases List.mem_cons.mp hL with hL | hL
      · subst hL
        rcases hinv with hinv | hinv
        · rw [hinv] at hlen; simp at hlen
        · exact hinv.2 v hv
      · exact ih w hrest (Or.inl hwword) L hL hlen v hv

lemma flatMap_singleton_of {α : Type} (l : List α) (f : α → List α)
    (h : ∀ x ∈ l, f x = [x]) : l.flatMap f = l := by
  induction l with
  | nil => rfl
  | cons a as ih =>
    rw [List.flatMap_cons, h a (by simp), ih (fun x hx => h x (by simp [hx]))]
    rfl

lemma splitNl_ne_nil : ∀ (t : Str), splitNl t ≠ [] := by
  intro t
  induction t with
  | nil => simp [splitNl]
  | cons c cs ih =>
    simp only [splitNl]
    by_cases hc : (c == '\n') = true
    · simp [hc]
    · simp only [hc, Bool.false_eq_true, if_false]
      cases splitNl cs with
      | nil => simp
      | cons l ls => simp

lemma find_max_isSome (μ : Measure) (lines : List Str) (w h : ℚ)
    (hl : lines ≠ []) :
    (find_max_font_size_for_multiline μ lines w h).isSome := by
  obtain ⟨f, hf1, hft, hmin, hfm⟩ := find_max_char μ lines w h hl
  rw [hfm]
  rfl

/- Concrete metrics provider that measures every string as zero. -/
def zeroMeasure : Measure := fun _ _ => 0

/- Concrete metrics provider measuring a string by its character count. -/
def lenMeasure : Measure := fun t _ => (t.length : ℚ)

/- Per-character advance widths of a small synthetic font: a space is one
   unit wide and every other character three units, scaled by the size. -/
def chWeight (c : Char) : ℚ := if c = ' ' then 1 else 3

/- Concrete metrics provider with additive character widths, the shape of
   reportlab's stringWidth. -/
def cwMeasure : Measure := fun t s => (s : ℚ) * (t.map chWeight).sum

lemma stepCheck_true_of_small_h (μ : Measure) (lines : List Str) (w h : ℚ)
    (s : ℕ) (hl : lines ≠ []) (hs : h - 4 < (s : ℚ)) :
    stepCheck μ lines w h s = some true := by
  have hwa : wrapAll μ lines s w ≠ [] :=
    fun hx => hl ((wrapAll_eq_nil_iff μ lines s w).mp hx)
  have hmap : (wrapAll μ lines s w).map (fun line => μ line s) ≠ [] := by
    simpa using hwa
  have hn : 1 ≤ (wrapAll μ lines s w).length := List.length_pos.mpr hwa
  have hth := totalHeight_ge (wrapAll μ lines s w).length hn s
  have hthq : (s : ℚ) ≤
      ((((wrapAll μ lines s w).length : ℤ) * (s : ℤ) +
        (((wrapAll μ lines s w).length : ℤ) - 1) * 2 : ℤ) : ℚ) := by
    exact_mod_cast hth
  have hgt : ((((wrapAll μ lines s w).length : ℤ) * (s : ℤ) +
      (((wrapAll μ lines s w).length : ℤ) - 1) * 2 : ℤ) : ℚ) > h - 4 := by
    linarith
  simp only [stepCheck, pyMax, hmap, if_neg, not_false_iff, ite_false]
  rw [decide_eq_true hgt]
  simp

lemma draw_label_pdf_char (μ : Measure) (text : Str) (w h : ℚ) (ov : ℤ)
    (raw : ℕ)
    (hraw : find_max_font_size_for_multiline μ (splitNl text) w h = some raw) :
    draw_label_pdf μ text w h ov =
      some (effectiveFontSize raw ov,
        drawCmds μ (splitNl text) w h (effectiveFontSize raw ov)) := by
  simp only [draw_label_pdf]
  rw [hraw]

lemma getD_range_map {α : Type} (n i : ℕ) (hi : i < n) (f : ℕ → α) (d : α) :
    (((List.range n).map f).getD i d) = f i := by
  rw [List.getD_eq_getElem?_getD, List.getElem?_map, List.getElem?_range hi]
  rfl

/-- Claim C10: word-wrap preserves the word sequence.  Splitting each
physical line returned by wrap_text_to_width on whitespace and concatenating
the results in order yields exactly the whitespace-split word list of the
input string: no word is lost, duplicated, reordered, or altered. -/
theorem C10_words_preserved (μ : Measure) (text : Str) (font_size : ℕ)
    (max_width : ℚ) :
    (wrap_text_to_width μ text font_size max_width).flatMap splitWs =
      splitWs text :=
  wrap_words_preserved μ text font_size max_width

/-- Claim C6: word-wrap is idempotent.  Re-wrapping any physical line of an
earlier wrap_text_to_width result with the same measure, size and width
returns that line unchanged as a one-element list, and re-wrapping the whole
wrapped set of a list of logical lines yields the same list back. -/
theorem C6_wrap_idempotent (μ : Measure) (font_size : ℕ) (max_width : ℚ)
    (text : Str) (lines : List Str) :
    (∀ L ∈ wrap_text_to_width μ text font_size max_width,
      wrap_text_to_width μ L font_size max_width = [L]) ∧
    (wrapAll μ lines font_size max_width).flatMap
        (fun L => wrap_text_to_width μ L font_size max_width) =
      wrapAll μ lines font_size max_width := by
  constructor
  · exact wrap_mem_rewrap μ font_size max_width text
  · apply flatMap_singleton_of
    intro L hL
    unfold wrapAll at hL
    rw [List.mem_flatMap] at hL
    obtain ⟨line, hline, hmem⟩ := hL
    exact wrap_mem_rewrap μ font_size max_width line L hmem

/-- Witness for C6: with the character-count metric and width 2, the text
"a b" wraps into the two lines "a" and "b", and re-wrapping the line "a"
returns it unchanged. -/
theorem C6_wrap_idempotent_witness :
    wrap_text_to_width lenMeasure ['a'] 1 2 = [['a']] := by
  have hwrap : wrap_text_to_width lenMeasure ['a', ' ', 'b'] 1 2 =
      [['a'], ['b']] := by
    simp +decide [wrap_text_to_width, splitWs, isWs, wrapLoop, lenMeasure]
  exact (C6_wrap_idempotent lenMeasure 1 2 ['a', ' ', 'b'] []).1 ['a']
    (by rw [hwrap]; simp)

/-- Claim C4: wrap_text_to_width equals the greedy reference wrap transcribed
from the specification; the empty (or all-whitespace) input yields exactly
the one-element list containing the empty string; and, for any metric that
is monotone under appending across a space, every physical line holding two
or more words only holds words that individually fit, so a word wider than
max_width can only ever sit alone on its line (it is never broken). -/
theorem C4_wrap_reference (μ : Measure) (text : Str) (font_size : ℕ)
    (max_width : ℚ) :
    wrap_text_to_width μ text font_size max_width =
      greedy_wrap μ text font_size max_width ∧
    (splitWs text = [] →
      wrap_text_to_width μ text font_size max_width = [[]]) ∧
    ((∀ a b : Str, μ a font_size ≤ μ (a ++ ' ' :: b) font_size ∧
        μ b font_size ≤ μ (a ++ ' ' :: b) font_size) →
      ∀ L ∈ wrap_text_to_width μ text font_size max_width,
        2 ≤ (splitWs L).length → ∀ v ∈ splitWs L, μ v font_size ≤ max_width) := by
  refine ⟨wrap_eq_greedy μ text font_size max_width, ?_, ?_⟩
  · intro hsp
    unfold wrap_text_to_width
    rw [hsp]
  · intro hmono L hL hlen v hv
    rw [wrap_eq_greedy] at hL
    unfold greedy_wrap at hL
    revert hL
    cases hsp : splitWs text with
    | nil =>
      intro hL
      simp only [List.mem_singleton] at hL
      subst hL
      rw [show splitWs ([] : Str) = [] from rfl] at hlen
      simp at hlen
    | cons w ws =>
      intro hL
      have hwords : ∀ x ∈ splitWs text, x ≠ [] ∧ ∀ c ∈ x, isWs c = false :=
        fun x hx => splitWs_mem_words text x hx
      rw [hsp] at hwords
      have hw := hwords w (by simp)
      have hws2 : ∀ x ∈ ws, x ≠ [] ∧ ∀ c ∈ x, isWs c = false :=
        fun x hx => hwords x (by simp [hx])
      exact greedy_go_wide μ font_size max_width hmono ws w hws2
        (Or.inl (splitWs_word w hw.1 hw.2)) L hL hlen v hv

/-- Witness for C4: the all-whitespace input wraps to one empty line, and
with the character-count metric (which is monotone under appending) at
width 2 every multi-word line of the wrap of "a b" holds only fitting
words. -/
theorem C4_wrap_reference_witness :
    wrap_text_to_width lenMeasure [' '] 1 2 = [[]] ∧
    (∀ L ∈ wrap_text_to_width lenMeasure ['a', ' ', 'b'] 1 2,
      2 ≤ (splitWs L).length → ∀ v ∈ splitWs L, lenMeasure v 1 ≤ 2) := by
  constructor
  · exact (C4_wrap_reference lenMeasure [' '] 1 2).2.1 (by decide)
  · refine (C4_wrap_reference lenMeasure ['a', ' ', 'b'] 1 2).2.2 ?_
    intro a b
    have ha : (0 : ℚ) ≤ (b.length : ℚ) := by positivity
    have hb : (0 : ℚ) ≤ (a.length : ℚ) := by positivity
    constructor <;>
      simp only [lenMeasure, List.length_append, List.length_cons] <;>
      (push_cast; linarith)

/-- Claim C2: at every candidate font size s inside the search loop, the loop
wraps the logical lines afresh at size s and evaluates exactly the fit
predicate of the specification on that wrap: total_height equals
numLines * s + (numLines - 1) * 2, max_width is the largest measured line
width, and the size fits (the loop continues) precisely when
max_width <= width - 4 and total_height <= height - 4. -/
theorem C2_fit_predicate (μ : Measure) (lines : List Str) (w h : ℚ) (s : ℕ) :
    (searchLoop μ lines w h s =
      match stepCheck μ lines w h s with
      | none => none
      | some true => some (max (s - 1) 1)
      | some false => searchLoop μ lines w h (s + 1)) ∧
    (∀ b, stepCheck μ lines w h s = some b →
      (b = false ↔ specFits μ lines w h s)) ∧
    (stepCheck μ lines w h s = none ↔ lines = []) := by
  refine ⟨searchLoop_unfold μ lines w h s, ?_, stepCheck_eq_none_iff μ lines w h s⟩
  intro b hb
  simp only [stepCheck, pyMax] at hb
  by_cases hw : (wrapAll μ lines s w).map (fun line => μ line s) = []
  · simp [hw] at hb
  · rw [if_neg hw] at hb
    have hb2 := Option.some.inj hb
    subst hb2
    unfold specFits
    simp only [Bool.or_eq_false_iff, decide_eq_false_iff_not, not_lt]

/-- Witness for C2: at the concrete input of one empty logical line on a
10 by 10 canvas, candidate size 1 fits, and the specification's fit
predicate agrees. -/
theorem C2_fit_predicate_witness :
    false = false ↔ specFits zeroMeasure [[]] 10 10 1 := by
  refine (C2_fit_predicate zeroMeasure [[]] 10 10 1).2.1 false ?_
  simp +decide [stepCheck, wrapAll, wrap_text_to_width, splitWs, isWs, wrapLoop,
    pyMax, listMax, zeroMeasure]
  norm_num

/-- Claim C8: the font-size search terminates on every text reaching it.
Splitting any text (including the empty one) on newlines yields at least
one logical line, every wrap yields at least one physical line, so at each
candidate size s the total height is at least s; hence some size fails the
fit test and find_max_font_size_for_multiline returns a value. -/
theorem C8_search_terminates (μ : Measure) (w h : ℚ) (text : Str) :
    splitNl text ≠ [] ∧
    (∀ s : ℕ, 1 ≤ (wrapAll μ (splitNl text) s w).length ∧
      (s : ℤ) ≤ ((wrapAll μ (splitNl text) s w).length : ℤ) * (s : ℤ) +
        (((wrapAll μ (splitNl text) s w).length : ℤ) - 1) * 2) ∧
    (∃ s : ℕ, 1 ≤ s ∧ stepCheck μ (splitNl text) w h s = some true) ∧
    (find_max_font_size_for_multiline μ (splitNl text) w h).isSome := by
  have hne := splitNl_ne_nil text
  refine ⟨hne, ?_, ?_, find_max_isSome μ (splitNl text) w h hne⟩
  · intro s
    have hwa : wrapAll μ (splitNl text) s w ≠ [] :=
      fun hx => hne ((wrapAll_eq_nil_iff μ (splitNl text) s w).mp hx)
    have hlen : 1 ≤ (wrapAll μ (splitNl text) s w).length :=
      List.length_pos.mpr hwa
    exact ⟨hlen, totalHeight_ge (wrapAll μ (splitNl text) s w).length hlen s⟩
  · obtain ⟨f, hf1, hft, hmin⟩ := exists_first_fail μ (splitNl text) w h hne
    exact ⟨f, hf1, hft⟩

/-- Counterexample for Claim C1: on the non-empty line list [""] with the
zero-width metric on a 100 by 4 canvas (a positive canvas), even size 1
fails the fit test (its total height 1 exceeds height - 4 = 0), yet
find_max_font_size_for_multiline returns 1 because of the clamp; the
returned size does not satisfy the fit predicate, so no size s with
"fit at s and fail at s + 1" is returned. -/
theorem C1_boundary_counterexample :
    find_max_font_size_for_multiline zeroMeasure [[]] 100 4 = some 1 ∧
    stepCheck zeroMeasure [[]] 100 4 1 = some true := by
  have hstep : stepCheck zeroMeasure [[]] 100 4 1 = some true := by
    simp +decide [stepCheck, wrapAll, wrap_text_to_width, splitWs, isWs,
      wrapLoop, pyMax, listMax, zeroMeasure]
  refine ⟨?_, hstep⟩
  unfold find_max_font_size_for_multiline
  rw [searchLoop_of_true zeroMeasure [[]] 100 4 1 hstep]
  rfl

/-- Claim C1 (amended): for every non-empty line list, measure and canvas
there is a first failing size f >= 1; every size below it fits;
find_max_font_size_for_multiline returns max(f - 1, 1), one less than the
first failing size floored at 1; and whenever size 1 fits, the returned
value f - 1 satisfies the fit predicate while f - 1 + 1 fails it (boundary
exactness).  When even size 1 fails, the clamp returns 1, which does not
satisfy the predicate (see the counterexample). -/
theorem C1_boundary_amended (μ : Measure) (lines : List Str) (w h : ℚ)
    (hl : lines ≠ []) :
    ∃ f, 1 ≤ f ∧ stepCheck μ lines w h f = some true ∧
      (∀ t, 1 ≤ t → t < f → stepCheck μ lines w h t = some false) ∧
      find_max_font_size_for_multiline μ lines w h = some (max (f - 1) 1) ∧
      (stepCheck μ lines w h 1 = some false →
        max (f - 1) 1 = f - 1 ∧
        stepCheck μ lines w h (f - 1) = some false ∧
        stepCheck μ lines w h (f - 1 + 1) = some true) := by
  obtain ⟨f, hf1, hft, hmin, hfm⟩ := find_max_char μ lines w h hl
  refine ⟨f, hf1, hft, hmin, hfm, ?_⟩
  intro h1
  have hf2 : 2 ≤ f := by
    rcases Nat.lt_or_ge f 2 with hlt | hge
    · have hfe : f = 1 := by omega
      rw [hfe] at hft
      rw [h1] at hft
      exact absurd hft (by simp)
    · exact hge
  refine ⟨by omega, hmin (f - 1) (by omega) (by omega), ?_⟩
  have hfe : f - 1 + 1 = f := by omega
  rw [hfe]
  exact hft

/-- Witness for C1 (amended): on the line list [""] with the zero metric and
a 100 by 6 canvas, sizes 1 and 2 fit and size 3 is the first failure, so the
search returns 2 and the boundary is exact. -/
theorem C1_boundary_amended_witness :
    ∃ f, 1 ≤ f ∧ stepCheck zeroMeasure [[]] 100 6 f = some true ∧
      (∀ t, 1 ≤ t → t < f → stepCheck zeroMeasure [[]] 100 6 t = some false) ∧
      find_max_font_size_for_multiline zeroMeasure [[]] 100 6 =
        some (max (f - 1) 1) ∧
      (stepCheck zeroMeasure [[]] 100 6 1 = some false →
        max (f - 1) 1 = f - 1 ∧
        stepCheck zeroMeasure [[]] 100 6 (f - 1) = some false ∧
        stepCheck zeroMeasure [[]] 100 6 (f - 1 + 1) = some true) :=
  C1_boundary_amended zeroMeasure [[]] 100 6 (by simp)

lemma stepCheck_mono_h (μ : Measure) (lines : List Str) (w : ℚ) (h h' : ℚ)
    (hh : h ≤ h') (s : ℕ) (hc : stepCheck μ lines w h s = some false) :
    stepCheck μ lines w h' s = some false := by
  simp only [stepCheck, pyMax] at hc ⊢
  by_cases hw : (wrapAll μ lines s w).map (fun line => μ line s) = []
  · simp [hw] at hc
  · rw [if_neg hw] at hc ⊢
    simp only [Option.some_inj, Bool.or_eq_false_iff,
      decide_eq_false_iff_not, not_lt] at hc ⊢
    exact ⟨hc.1, le_trans hc.2 (by linarith)⟩

/-- Counterexample for Claim C5: with an additive per-character metric
(space one unit, other characters three), the single logical line "A B" on
a canvas of height 12 yields raw size 3 at width 13 but raw size 1 at the
larger width 14: at width 14 and size 2 the two words merge into one
physical line of measured width 14, which exceeds 14 - 4 = 10, so the fit
fails earlier.  Increasing the canvas width decreased the returned size. -/
theorem C5_width_counterexample :
    find_max_font_size_for_multiline cwMeasure [['A', ' ', 'B']] 13 12 =
      some 3 ∧
    find_max_font_size_for_multiline cwMeasure [['A', ' ', 'B']] 14 12 =
      some 1 ∧
    (13 : ℚ) ≤ 14 ∧ ¬((3 : ℕ) ≤ 1) := by
  refine ⟨?_, ?_, by norm_num, by omega⟩
  · unfold find_max_font_size_for_multiline
    rw [searchLoop_of_false cwMeasure [['A', ' ', 'B']] 13 12 1 (by
        simp +decide [stepCheck, wrapAll, wrap_text_to_width, splitWs, isWs,
          wrapLoop, pyMax, listMax, cwMeasure, chWeight]
        norm_num +decide [chWeight]),
      searchLoop_of_false cwMeasure [['A', ' ', 'B']] 13 12 2 (by
        simp +decide [stepCheck, wrapAll, wrap_text_to_width, splitWs, isWs,
          wrapLoop, pyMax, listMax, cwMeasure, chWeight]
        norm_num +decide [chWeight]),
      searchLoop_of_false cwMeasure [['A', ' ', 'B']] 13 12 3 (by
        simp +decide [stepCheck, wrapAll, wrap_text_to_width, splitWs, isWs,
          wrapLoop, pyMax, listMax, cwMeasure, chWeight]
        norm_num +decide [chWeight]),
      searchLoop_of_true cwMeasure [['A', ' ', 'B']] 13 12 4 (by
        simp +decide [stepCheck, wrapAll, wrap_text_to_width, splitWs, isWs,
          wrapLoop, pyMax, listMax, cwMeasure, chWeight]
        norm_num +decide [chWeight])]
    rfl
  · unfold find_max_font_size_for_multiline
    rw [searchLoop_of_false cwMeasure [['A', ' ', 'B']] 14 12 1 (by
        simp +decide [stepCheck, wrapAll, wrap_text_to_width, splitWs, isWs,
          wrapLoop, pyMax, listMax, cwMeasure, chWeight]
        norm_num +decide [chWeight]),
      searchLoop_of_true cwMeasure [['A', ' ', 'B']] 14 12 2 (by
        simp +decide [stepCheck, wrapAll, wrap_text_to_width, splitWs, isWs,
          wrapLoop, pyMax, listMax, cwMeasure, chWeight]
        norm_num +decide [chWeight])]
    rfl

/-- Claim C5 (amended): for fixed text, metric and width, increasing the
canvas height never decreases the raw size returned by
find_max_font_size_for_multiline, and for a fixed raw size decreasing the
override never increases the effective render size.  The original claim's
width part is false: increasing the canvas width can decrease the raw size
(see the counterexample), because wrapping is recomputed against the full
width while the fit test uses width - 4. -/
theorem C5_mono_amended (μ : Measure) (lines : List Str) (w h h' : ℚ)
    (raw : ℕ) (ov ov' : ℤ) (hl : lines ≠ []) (hh : h ≤ h') :
    (∃ r r', find_max_font_size_for_multiline μ lines w h = some r ∧
      find_max_font_size_for_multiline μ lines w h' = some r' ∧ r ≤ r') ∧
    (ov' ≤ ov → effectiveFontSize raw ov' ≤ effectiveFontSize raw ov) := by
  constructor
  · obtain ⟨f, hf1, hft, hmin, hfm⟩ := find_max_char μ lines w h hl
    obtain ⟨f', hf1', hft', hmin', hfm'⟩ := find_max_char μ lines w h' hl
    have hff : f ≤ f' := by
      by_contra hcon
      push_neg at hcon
      have hfalse := hmin f' hf1' hcon
      have hmono := stepCheck_mono_h μ lines w h h' hh f' hfalse
      rw [hft'] at hmono
      exact absurd hmono (by simp)
    exact ⟨max (f - 1) 1, max (f' - 1) 1, hfm, hfm',
      max_le_max (by omega) le_rfl⟩
  · intro hov
    unfold effectiveFontSize
    exact max_le_max (by omega) le_rfl

/-- Witness for C5 (amended): concrete instance with the zero metric, the
line list [""], width 10, heights 6 and 10, raw size 5 and overrides
going from 2 down to -1. -/
theorem C5_mono_amended_witness :
    (∃ r r', find_max_font_size_for_multiline zeroMeasure [[]] 10 6 = some r ∧
      find_max_font_size_for_multiline zeroMeasure [[]] 10 10 = some r' ∧
      r ≤ r') ∧
    ((-1 : ℤ) ≤ 2 → effectiveFontSize 5 (-1) ≤ effectiveFontSize 5 2) :=
  C5_mono_amended zeroMeasure [[]] 10 6 10 5 2 (-1) (by simp) (by norm_num)

/-- Counterexample for Claim C3: with raw size 3 and override +5 the
effective size is max(3 - 2 + 5, 1) = 6, not 1; the clamp does not fire
there, contradicting the claimed Scenario E. -/
theorem C3_scenarioE_counterexample :
    effectiveFontSize 3 5 = 6 ∧ effectiveFontSize 3 5 ≠ 1 := by
  constructor <;> norm_num [effectiveFontSize, FONT_ADJUSTMENT]

/-- Claim C3 (amended): the font size used for measuring and drawing equals
max(rawSize - 2 + override, 1), and the clamp changes the value exactly
when rawSize - 2 + override <= 0; with rawSize 3 the clamp fires for
override -5 (effective size 1), while override +5 gives effective size 6. -/
theorem C3_effective_size_amended (μ : Measure) (text : Str) (w h : ℚ)
    (ov : ℤ) :
    (∃ raw fs cmds,
      find_max_font_size_for_multiline μ (splitNl text) w h = some raw ∧
      draw_label_pdf μ text w h ov = some (fs, cmds) ∧
      fs = max ((raw : ℤ) - 2 + ov) 1 ∧ cmds = drawCmds μ (splitNl text) w h fs) ∧
    (∀ (r : ℕ) (o : ℤ),
      (effectiveFontSize r o ≠ (r : ℤ) - 2 + o ↔ (r : ℤ) - 2 + o ≤ 0)) ∧
    effectiveFontSize 3 (-5) = 1 ∧ effectiveFontSize 3 5 = 6 := by
  refine ⟨?_, ?_, by norm_num [effectiveFontSize, FONT_ADJUSTMENT],
    by norm_num [effectiveFontSize, FONT_ADJUSTMENT]⟩
  · obtain ⟨f, hf1, hft, hmin, hfm⟩ :=
      find_max_char μ (splitNl text) w h (splitNl_ne_nil text)
    exact ⟨max (f - 1) 1, effectiveFontSize (max (f - 1) 1) ov,
      drawCmds μ (splitNl text) w h (effectiveFontSize (max (f - 1) 1) ov),
      hfm, draw_label_pdf_char μ text w h ov (max (f - 1) 1) hfm, rfl, rfl⟩
  · intro r o
    unfold effectiveFontSize FONT_ADJUSTMENT
    constructor
    · intro hne
      by_contra hpos
      push_neg at hpos
      exact hne (max_eq_left (by omega))
    · intro hle
      rw [max_eq_right (by omega)]
      omega

/-- Claim C7: for every layout result produced by draw_label_pdf, the draw
instructions are exactly the specification's formulas at the effective size:
one instruction per wrapped physical line, with
x = (width - measure(line)) / 2,
y = (height - total_height) / 2 + (numLines - i - 1) * (size + 2)
where total_height = numLines * size + (numLines - 1) * 2 is recomputed at
the effective size, and the centering round-trips:
x + measure(line) = width - x exactly. -/
theorem C7_layout_positions (μ : Measure) (text : Str) (w h : ℚ) (ov : ℤ)
    (fs : ℤ) (cmds : List DrawCmd)
    (hdraw : draw_label_pdf μ text w h ov = some (fs, cmds)) :
    cmds.length = (wrapAll μ (splitNl text) fs.toNat w).length ∧
    ∀ i, i < (wrapAll μ (splitNl text) fs.toNat w).length →
      (cmds.getD i ⟨0, 0, []⟩).text =
        (wrapAll μ (splitNl text) fs.toNat w).getD i [] ∧
      (cmds.getD i ⟨0, 0, []⟩).x =
        (w - μ ((wrapAll μ (splitNl text) fs.toNat w).getD i []) fs.toNat) / 2 ∧
      (cmds.getD i ⟨0, 0, []⟩).y =
        (h - ((((wrapAll μ (splitNl text) fs.toNat w).length : ℤ) * fs +
          (((wrapAll μ (splitNl text) fs.toNat w).length : ℤ) - 1) * 2 : ℤ) : ℚ)) / 2 +
        ((((wrapAll μ (splitNl text) fs.toNat w).length : ℤ) - (i : ℤ) - 1 : ℤ) : ℚ) *
          ((fs + 2 : ℤ) : ℚ) ∧
      (cmds.getD i ⟨0, 0, []⟩).x +
          μ ((wrapAll μ (splitNl text) fs.toNat w).getD i []) fs.toNat =
        w - (cmds.getD i ⟨0, 0, []⟩).x := by
  rcases hfm : find_max_font_size_for_multiline μ (splitNl text) w h with _ | raw
  · simp only [draw_label_pdf, hfm] at hdraw
    exact Option.noConfusion hdraw
  · have hchar := draw_label_pdf_char μ text w h ov raw hfm
    rw [hchar] at hdraw
    have hpair := Option.some.inj hdraw
    have hfs : effectiveFontSize raw ov = fs := congrArg Prod.fst hpair
    have hcmds : drawCmds μ (splitNl text) w h (effectiveFontSize raw ov) =
        cmds := congrArg Prod.snd hpair
    rw [hfs] at hcmds
    subst hcmds
    constructor
    · simp [drawCmds]
    · intro i hi
      unfold drawCmds
      rw [getD_range_map (wrapAll μ (splitNl text) fs.toNat w).length i hi]
      refine ⟨rfl, rfl, rfl, ?_⟩
      ring

/-- Witness for C7: with the zero metric, text "x", canvas 10 by 6 and no
override, the raw size is 2, the effective size 1, and the single draw
instruction sits at x = 5, y = 5/2 with symmetric centering. -/
theorem C7_layout_positions_witness :
    ([⟨5, 5/2, ['x']⟩] : List DrawCmd).length =
      (wrapAll zeroMeasure (splitNl ['x']) (1 : ℤ).toNat 10).length ∧
    ∀ i, i < (wrapAll zeroMeasure (splitNl ['x']) (1 : ℤ).toNat 10).length →
      (([⟨5, 5/2, ['x']⟩] : List DrawCmd).getD i ⟨0, 0, []⟩).text =
        (wrapAll zeroMeasure (splitNl ['x']) (1 : ℤ).toNat 10).getD i [] ∧
      (([⟨5, 5/2, ['x']⟩] : List DrawCmd).getD i ⟨0, 0, []⟩).x =
        (10 - zeroMeasure
          ((wrapAll zeroMeasure (splitNl ['x']) (1 : ℤ).toNat 10).getD i [])
          (1 : ℤ).toNat) / 2 ∧
      (([⟨5, 5/2, ['x']⟩] : List DrawCmd).getD i ⟨0, 0, []⟩).y =
        (6 - ((((wrapAll zeroMeasure (splitNl ['x']) (1 : ℤ).toNat 10).length : ℤ) *
            (1 : ℤ) +
          (((wrapAll zeroMeasure (splitNl ['x']) (1 : ℤ).toNat 10).length : ℤ) - 1) *
            2 : ℤ) : ℚ)) / 2 +
        ((((wrapAll zeroMeasure (splitNl ['x']) (1 : ℤ).toNat 10).length : ℤ) -
            (i : ℤ) - 1 : ℤ) : ℚ) * (((1 : ℤ) + 2 : ℤ) : ℚ) ∧
      (([⟨5, 5/2, ['x']⟩] : List DrawCmd).getD i ⟨0, 0, []⟩).x +
          zeroMeasure
            ((wrapAll zeroMeasure (splitNl ['x']) (1 : ℤ).toNat 10).getD i [])
            (1 : ℤ).toNat =
        10 - (([⟨5, 5/2, ['x']⟩] : List DrawCmd).getD i ⟨0, 0, []⟩).x := by
  have hs1 : stepCheck zeroMeasure (splitNl ['x']) 10 6 1 = some false := by
    simp +decide [stepCheck, wrapAll, wrap_text_to_width, splitWs, isWs,
      wrapLoop, pyMax, listMax, zeroMeasure, splitNl]
    norm_num
  have hs2 : stepCheck zeroMeasure (splitNl ['x']) 10 6 2 = some false := by
    simp +decide [stepCheck, wrapAll, wrap_text_to_width, splitWs, isWs,
      wrapLoop, pyMax, listMax, zeroMeasure, splitNl]
    norm_num
  have hs3 : stepCheck zeroMeasure (splitNl ['x']) 10 6 3 = some true := by
    simp +decide [stepCheck, wrapAll, wrap_text_to_width, splitWs, isWs,
      wrapLoop, pyMax, listMax, zeroMeasure, splitNl]
    norm_num
  have hraw : find_max_font_size_for_multiline zeroMeasure (splitNl ['x']) 10 6 =
      some 2 := by
    unfold find_max_font_size_for_multiline
    rw [searchLoop_of_false zeroMeasure (splitNl ['x']) 10 6 1 hs1,
      searchLoop_of_false zeroMeasure (splitNl ['x']) 10 6 2 hs2,
      searchLoop_of_true zeroMeasure (splitNl ['x']) 10 6 3 hs3]
    rfl
  have hchar := draw_label_pdf_char zeroMeasure ['x'] 10 6 0 2 hraw
  have heff : effectiveFontSize 2 0 = 1 := by
    norm_num [effectiveFontSize, FONT_ADJUSTMENT]
  rw [heff] at hchar
  have hcmds : drawCmds zeroMeasure (splitNl ['x']) 10 6 1 = [⟨5, 5/2, ['x']⟩] := by
    simp +decide [drawCmds, wrapAll, wrap_text_to_width, splitWs, isWs, wrapLoop,
      splitNl, zeroMeasure, show List.range 1 = [0] from by decide]
    norm_num
  rw [hcmds] at hchar
  exact C7_layout_positions zeroMeasure ['x'] 10 6 0 1 [⟨5, 5/2, ['x']⟩] hchar

/-- Counterexample for Claim C9: on the degenerate 0 by 0 canvas the code
performs no validation at all: create_pdf happily emits one ordinary page
for the record "x" (raw size 1 from the immediately failing search,
effective size 1, one centered draw instruction at x = 0, y = -1/2); no
InvalidCanvas error exists anywhere in the program. -/
theorem C9_invalid_canvas_counterexample :
    create_pdf zeroMeasure [['x']] 0 0 0 =
      [some (1, [⟨0, -(1/2 : ℚ), ['x']⟩])] := by
  have hstep : stepCheck zeroMeasure (splitNl ['x']) 0 0 1 = some true := by
    simp +decide [stepCheck, wrapAll, wrap_text_to_width, splitWs, isWs,
      wrapLoop, pyMax, listMax, zeroMeasure, splitNl]
  have hraw : find_max_font_size_for_multiline zeroMeasure (splitNl ['x']) 0 0 =
      some 1 := by
    unfold find_max_font_size_for_multiline
    rw [searchLoop_of_true zeroMeasure (splitNl ['x']) 0 0 1 hstep]
    rfl
  have hchar := draw_label_pdf_char zeroMeasure ['x'] 0 0 0 1 hraw
  have heff : effectiveFontSize 1 0 = 1 := by
    norm_num [effectiveFontSize, FONT_ADJUSTMENT]
  rw [heff] at hchar
  have hcmds : drawCmds zeroMeasure (splitNl ['x']) 0 0 1 =
      [⟨0, -(1/2 : ℚ), ['x']⟩] := by
    simp +decide [drawCmds, wrapAll, wrap_text_to_width, splitWs, isWs,
      wrapLoop, splitNl, zeroMeasure, show List.range 1 = [0] from by decide]
    norm_num
  rw [hcmds] at hchar
  unfold create_pdf
  simp +decide [pyStrip, isWs]
  rw [hchar]
  norm_num

/-- Claim C9 (amended): the code never raises an InvalidCanvas error: for
every canvas, including non-positive widths and heights, draw_label_pdf
returns an ordinary layout result; and for a non-positive height the search
fails already at size 1 and returns raw size 1. -/
theorem C9_no_validation_amended (μ : Measure) (text : Str) (w h : ℚ)
    (ov : ℤ) :
    (draw_label_pdf μ text w h ov).isSome ∧
    (h ≤ 0 → find_max_font_size_for_multiline μ (splitNl text) w h = some 1) := by
  constructor
  · obtain ⟨f, hf1, hft, hmin, hfm⟩ :=
      find_max_char μ (splitNl text) w h (splitNl_ne_nil text)
    rw [draw_label_pdf_char μ text w h ov (max (f - 1) 1) hfm]
    rfl
  · intro hh
    have h1 : stepCheck μ (splitNl text) w h 1 = some true :=
      stepCheck_true_of_small_h μ (splitNl text) w h 1 (splitNl_ne_nil text)
        (by push_cast; linarith)
    unfold find_max_font_size_for_multiline
    rw [searchLoop_of_true μ (splitNl text) w h 1 h1]
    rfl

/-- Witness for C9 (amended): at height 0 (a degenerate canvas) with the
zero metric and text "x", the search returns raw size 1 instead of failing
with an error. -/
theorem C9_no_validation_amended_witness :
    find_max_font_size_for_multiline zeroMeasure (splitNl ['x']) 5 0 = some 1 :=
  (C9_no_validation_amended zeroMeasure ['x'] 5 0 0).2 (le_refl 0)
